import Mathlib

/-!
Verification development for the `secure_com` repository: a shallow embedding
of its RSA / AES / handshake core in Lean 4, with theorems settling the
specification claims.

Conventions of the embedding:
* arbitrary-precision integers (`num_bigint::BigUint` / `BigInt`) are `Nat` / `Int`;
* byte buffers are `List Nat` (each element `< 256` where it matters);
* wire text is `List Char`;
* fallible operations (Rust panics and `Result` errors) return `Option`;
* functions of external libraries that the spec declares out of scope
  (modular exponentiation, byte/level conversions of `num_bigint`) are
  modelled from their documented semantics;
* recursive helpers that Rust writes as loops on shrinking numbers are
  written with an explicit fuel argument equal to the start value, which is
  always sufficient (proved by the `..._eq` unfolding lemmas); this keeps
  every definition computable by the kernel.
-/

namespace SecureCom

/-! ### Models of the external big-integer library -/

/-- Model of `BigUint::modpow(e, n)`: `b ^ e mod n`.  The library requires a
nonzero modulus; theorems about it carry a `1 ≤ n` hypothesis. -/
def modpow (b e n : Nat) : Nat := b ^ e % n

/-- Model of `BigUint::from_bytes_be`: big-endian interpretation of bytes. -/
def from_bytes_be : List Nat → Nat
  | [] => 0
  | b :: rest => b * 256 ^ rest.length + from_bytes_be rest

/-- Fuelled helper for `BigUint::to_bytes_be` on nonzero values
(most significant byte first, no leading zero byte). -/
def to_bytes_aux : Nat → Nat → List Nat
  | 0, _ => []
  | fuel + 1, n => if n = 0 then [] else to_bytes_aux fuel (n / 256) ++ [n % 256]

/-- Model of `BigUint::to_bytes_be`: the library returns `[0]` for zero and
the minimal big-endian byte string otherwise. -/
def to_bytes_be (n : Nat) : List Nat :=
  if n = 0 then [0] else to_bytes_aux n n

/-- Model of `BigUint::bits()`: bit length, `0` for `0`. -/
def bits_aux : Nat → Nat → Nat
  | 0, _ => 0
  | fuel + 1, n => if n = 0 then 0 else bits_aux fuel (n / 2) + 1

/-- Bit length of a natural number (`BigUint::bits`). -/
def bits (n : Nat) : Nat := bits_aux n n

/-! ### Decimal / hexadecimal text, as printed and parsed by the library -/

/-- The character printed for one digit value (`0`–`9`, then lowercase `a`–`f`). -/
def digitChar (d : Nat) : Char :=
  if d < 10 then Char.ofNat (48 + d) else Char.ofNat (87 + d)

/-- Fuelled digit expansion, most significant first, empty for zero. -/
def to_digits_aux (base : Nat) : Nat → Nat → List Char
  | 0, _ => []
  | fuel + 1, n => if n = 0 then [] else to_digits_aux base fuel (n / base) ++ [digitChar (n % base)]

/-- Model of `format!("{}", b)` for `BigUint`: decimal representation. -/
def dec_repr (n : Nat) : List Char :=
  if n = 0 then ['0'] else to_digits_aux 10 n n

/-- Model of `format!("{:x}", b)` for `BigUint`: lowercase hexadecimal. -/
def hex_repr (n : Nat) : List Char :=
  if n = 0 then ['0'] else to_digits_aux 16 n n

/-- Numeric value of a digit character, accepting both letter cases
(as `Num::from_str_radix` does). -/
def digitVal (c : Char) : Option Nat :=
  if '0' ≤ c ∧ c ≤ '9' then some (c.toNat - 48)
  else if 'a' ≤ c ∧ c ≤ 'f' then some (c.toNat - 87)
  else if 'A' ≤ c ∧ c ≤ 'F' then some (c.toNat - 55)
  else none

/-- Accumulating digit parser: fails on any character that is not a digit
of the base. -/
def parse_digits_aux (base : Nat) : List Char → Nat → Option Nat
  | [], acc => some acc
  | c :: rest, acc =>
    match digitVal c with
    | some v => if v < base then parse_digits_aux base rest (acc * base + v) else none
    | none => none

/-- Model of `BigUint::from_str` / `from_str_radix`: rejects the empty string
and any non-digit character. -/
def parse_digits (base : Nat) (s : List Char) : Option Nat :=
  if s.isEmpty then none else parse_digits_aux base s 0

/-! ### Text helpers (`str::trim`, `split_whitespace`, `split`, `read_line`) -/

/-- `str::trim`: drop whitespace from both ends. -/
def trimChars (s : List Char) : List Char :=
  ((s.dropWhile Char.isWhitespace).reverse.dropWhile Char.isWhitespace).reverse

/-- Helper of `split_whitespace`; `acc` holds the current token reversed. -/
def split_ws_aux : List Char → List Char → List (List Char)
  | [], acc => if acc.isEmpty then [] else [acc.reverse]
  | c :: rest, acc =>
    if c.isWhitespace then
      if acc.isEmpty then split_ws_aux rest [] else acc.reverse :: split_ws_aux rest []
    else split_ws_aux rest (c :: acc)

/-- Model of `str::split_whitespace`: maximal non-whitespace tokens. -/
def split_whitespace (s : List Char) : List (List Char) := split_ws_aux s []

/-- Model of `str::split(sep)`: keeps empty fragments, never returns an
empty list. -/
def splitOnChar (sep : Char) : List Char → List (List Char)
  | [] => [[]]
  | c :: rest =>
    if c = sep then [] :: splitOnChar sep rest
    else
      match splitOnChar sep rest with
      | t :: ts => (c :: t) :: ts
      | [] => [[c]]

/-- The segments a `read_line` loop sees: split on the newline terminator;
a final empty segment corresponds to the read that returns 0 at end of
input and is not handed to the loop body. -/
def read_lines (input : List Char) : List (List Char) :=
  let parts := splitOnChar '\n' input
  if parts.getLast? = some [] then parts.dropLast else parts

/-! ### `src/encryption/rsa.rs`: keys and messages -/

/-- `PublicKey { key: e, n_value: n }`. -/
structure PublicKey where
  key : Nat
  n_value : Nat
deriving DecidableEq, Repr

/-- `PrivateKey { key: d, n_value: n }` (the borrowed `parent` reference has
no observable content and is dropped). -/
structure PrivateKey where
  key : Nat
  n_value : Nat
deriving DecidableEq, Repr

/-- `PublicKey::max_message_size`: `(bits(n) - 1) / 8` (u64 arithmetic;
the model is faithful for `n ≥ 1`, where no wrap-around occurs). -/
def PublicKey.max_message_size (pk : PublicKey) : Nat :=
  (bits pk.n_value - 1) / 8

/-- `RSAMessage`: a tagged plaintext or ciphertext big integer. -/
inductive RSAMessage where
  | Decrypted : Nat → RSAMessage
  | Encrypted : Nat → RSAMessage
deriving DecidableEq, Repr

/-- `RSAMessage::encrypt`: `m^e mod n` on `Decrypted`, identity otherwise. -/
def RSAMessage.encrypt (m : RSAMessage) (pk : PublicKey) : RSAMessage :=
  match m with
  | .Decrypted x => .Encrypted (modpow x pk.key pk.n_value)
  | e => e

/-- `RSAMessage::decrypt`: `c^d mod n` on `Encrypted`, identity otherwise. -/
def RSAMessage.decrypt (m : RSAMessage) (sk : PrivateKey) : RSAMessage :=
  match m with
  | .Encrypted x => .Decrypted (modpow x sk.key sk.n_value)
  | d => d

/-- `RSAKeys::valid`: round-trip the probe value 2 through both transforms. -/
def rsa_keys_valid (e d n : Nat) : Bool :=
  match (RSAMessage.Decrypted 2).encrypt ⟨e, n⟩ |>.decrypt ⟨d, n⟩ with
  | .Decrypted v => v = 2
  | .Encrypted _ => false

/-- `impl Display for PublicKey`: `write!(f, "({}, {})", n, e)`. -/
def display_public_key (pk : PublicKey) : List Char :=
  "(".data ++ dec_repr pk.n_value ++ ", ".data ++ dec_repr pk.key ++ ")".data

/-- `impl From<S> for PublicKey` wrapped in `catch_unwind`
(`FromStr`): trim, split on whitespace, parse token 0 as `n` and token 1 as
`e`; any panic (missing token or non-numeric text) becomes `none`. -/
def public_key_from_str (s : List Char) : Option PublicKey :=
  match split_whitespace (trimChars s) with
  | t0 :: t1 :: _ =>
    match parse_digits 10 t0, parse_digits 10 t1 with
    | some n, some e => some ⟨e, n⟩
    | _, _ => none
  | _ => none

/-! ### `src/encryption/mod.rs`: clear-text handshake steps -/

/-- `unsecure::send_public_key`: the line written is `RSA:{Display}\n`. -/
def send_public_key_line (pk : PublicKey) : List Char :=
  "RSA:".data ++ display_public_key pk ++ "\n".data

/-- `unsecure::receive_public_key` applied to the one line it reads
(including the trailing newline): trim, split on `:`, require prefix
`RSA`, then parse the remainder as a public key.  `none` models both the
`Err` returns and the panic of a missing `split[1]`. -/
def receive_public_key (line : List Char) : Option PublicKey :=
  match splitOnChar ':' (trimChars line) with
  | t0 :: rest =>
    if t0 = "RSA".data then
      match rest with
      | t1 :: _ => public_key_from_str t1
      | [] => none
    else none
  | [] => none

/-- `unsecure::server_ack` as a function of the first line read: returns the
list of lines written on success, `none` where the Rust code panics
(`split[0]` or `split[1]` on a too-short token list). -/
def server_ack (line : List Char) : Option (List (List Char)) :=
  match split_whitespace line with
  | [] => none
  | t :: rest =>
    if t = "COM_BEGIN".data then
      match rest with
      | [] => none
      | nonce :: _ => some [nonce ++ "\n".data]
    else some []

/-! ### `src/encryption/generator.rs`: number theory -/

/-- Fuelled factor-out-twos loop of `is_prime_probabilistic`:
`while temp % 2 == 0 { temp /= 2; r += 1 }`, returning `(d, r)`.
(The Rust loop diverges on `temp = 0`; the fuel guard is equivalent for
every positive start value.) -/
def decompose_aux : Nat → Nat → Nat × Nat
  | 0, t => (t, 0)
  | fuel + 1, t =>
    if t % 2 = 0 ∧ t ≠ 0 then
      let p := decompose_aux fuel (t / 2)
      (p.1, p.2 + 1)
    else (t, 0)

/-- Decompose `t = d * 2^r` with `d` odd. -/
def decompose (t : Nat) : Nat × Nat := decompose_aux t t

/-- The inner squaring loop of one Miller–Rabin round:
`for _ in 0..k { x = x^2 mod n; if x = n-1 { accept } }`. -/
def mr_square_loop (n : Nat) : Nat → Nat → Bool
  | 0, _ => false
  | k + 1, x =>
    let x2 := modpow x 2 n
    if x2 = n - 1 then true else mr_square_loop n k x2

/-- One Miller–Rabin round of `is_prime_probabilistic` for witness `a`. -/
def mr_round (n d r a : Nat) : Bool :=
  let x := modpow a d n
  if x = 1 ∨ x = n - 1 then true else mr_square_loop n (r - 1) x

/-- `RSAKeysGenerator::is_prime_probabilistic`, with the sequence of random
witnesses drawn by `gen_range(2, n - 2)` made explicit as the list `ws`
(one entry per round, `k = ws.length`).  Even numbers are rejected before
any witness is drawn; the test accepts iff every round accepts. -/
def is_prime_probabilistic (n : Nat) (ws : List Nat) : Bool :=
  if n % 2 = 0 then false
  else
    let p := decompose (n - 1)
    ws.all fun a => mr_round n p.1 p.2 a

/-- Fuelled `egcd` (the fuel `|a| + 1` always suffices; see `egcd_eq`).
Rust `%` and `/` on `BigInt` truncate toward zero, i.e. `Int.tmod` /
`Int.tdiv`.  Returns `(g, x, y)` for `a*x + b*y = g`. -/
def egcd_aux : Nat → Int → Int → Int × Int × Int
  | 0, _, b => (b, 0, 1)
  | fuel + 1, a, b =>
    if a = 0 then (b, 0, 1)
    else
      let r := egcd_aux fuel (Int.tmod b a) a
      (r.1, r.2.2 - Int.tdiv b a * r.2.1, r.2.1)

/-- `egcd(a, b)` of the source, returning `(gcd, x, y)`. -/
def egcd (a b : Int) : Int × Int × Int := egcd_aux (a.natAbs + 1) a b

/-- `modulo_inverse(a, m)`: `None` unless `egcd` reports gcd `1`, else the
normalised Bézout coefficient `((x % m) + m) % m` (truncated `%`). -/
def modulo_inverse (a m : Int) : Option Int :=
  let r := egcd a m
  if r.1 ≠ 1 then none
  else some (Int.tmod (Int.tmod r.2.1 m + m) m)

/-! ### `src/encryption/rsa_stream.rs`: the stream adapters -/

/-- The byte-collecting loop of `RSAWriter::write`:
`while index < buf.len() && index < max_bytes { bytes.push(buf[index]) }`. -/
def collect_bytes : List Nat → Nat → List Nat
  | _, 0 => []
  | [], _ => []
  | b :: rest, k + 1 => b :: collect_bytes rest k

/-- One call `RSAWriter::write(buf)`: the pair of the characters written to
the underlying sink (`writeln!` of the decimal ciphertext) and the returned
byte count. -/
def rsa_writer_write (pk : PublicKey) (buf : List Nat) : List Char × Nat :=
  let bytes := collect_bytes buf pk.max_message_size
  let c := modpow (from_bytes_be bytes) pk.key pk.n_value
  (dec_repr c ++ "\n".data, bytes.length)

/-- `RSAReader::read(buf)` with `buf.len() = bufLen`, applied to the whole
underlying source `input`: every newline-terminated line is trimmed, parsed
as a decimal ciphertext (`RSAMessage::from_encrypted` panics — `none` — on
parse failure), decrypted, and its big-endian bytes queued; then up to
`bufLen` bytes are drained. -/
def rsa_reader_read (sk : PrivateKey) (input : List Char) (bufLen : Nat) : Option (List Nat) :=
  let step := fun (acc : Option (List Nat)) (line : List Char) =>
    match acc, parse_digits 10 (trimChars line) with
    | some bs, some c => some (bs ++ to_bytes_be (modpow c sk.key sk.n_value))
    | _, _ => none
  ((read_lines input).foldl step (some [])).map fun queue => queue.take bufLen

/-! ### `src/encryption/aes.rs`: the AES key manager

The single-block cipher (`Aes128/192/256::encrypt_block/decrypt_block` of
the external `aes` crate) is out of scope for the spec; it is modelled as a
pair of functions `encB`/`decB` from the raw key bytes and one 16-byte
block to a block, assumed mutually inverse on 16-byte blocks exactly as the
crate guarantees. -/

/-- `AESManager`: the raw key bytes (the derived cipher state is a function
of them). -/
structure AESManager where
  key_value : List Nat
deriving DecidableEq, Repr

/-- `AESManager::parsable_string`: lowercase hex of the big-endian value of
the key bytes. -/
def AESManager.parsable_string (k : AESManager) : List Char :=
  hex_repr (from_bytes_be k.key_value)

/-- `impl FromStr for AESManager`: parse hex, take big-endian bytes, and
require `len * 8 ∈ {128, 192, 256}`. -/
def aes_manager_from_str (s : List Char) : Option AESManager :=
  match parse_digits 16 s with
  | none => none
  | some v =>
    let bytes := to_bytes_be v
    if bytes.length * 8 = 128 ∨ bytes.length * 8 = 192 ∨ bytes.length * 8 = 256 then
      some ⟨bytes⟩
    else none

/-- One plaintext block of `AESManager::encrypt`: bytes `i*16 + j` of the
message for `j < 16`, zero where the message has ended. -/
def aes_block (m : List Nat) (i : Nat) : List Nat :=
  (List.range 16).map fun j => m.getD (i * 16 + j) 0

/-- `AESManager::encrypt`: `len/16 (+1)` blocks, each zero-padded and
passed through the block cipher. -/
def AESManager.encrypt (encB : List Nat → List Nat → List Nat) (k : AESManager)
    (m : List Nat) : List (List Nat) :=
  let total := m.length / 16 + if m.length % 16 > 0 then 1 else 0
  (List.range total).map fun i => encB k.key_value (aes_block m i)

/-- `AESManager::decrypt`: block-decrypt each block and concatenate. -/
def AESManager.decrypt (decB : List Nat → List Nat → List Nat) (k : AESManager)
    (blocks : List (List Nat)) : List Nat :=
  (blocks.map (decB k.key_value)).flatten

/-- The zero padding `encrypt` applies: up to the next multiple of 16. -/
def zero_pad (m : List Nat) : List Nat :=
  m ++ List.replicate ((16 - m.length % 16) % 16) 0

/-! ## Theorems

First the infrastructure lemmas (fuel irrelevance, digit round trips,
byte round trips), then one theorem per claim with its witness or
counterexample. -/

theorem to_digits_aux_congr (base : Nat) (hb : 2 ≤ base) :
    ∀ f g n, n ≤ f → n ≤ g → to_digits_aux base f n = to_digits_aux base g n := by
  intro f
  induction f with
  | zero =>
    intro g n hf _
    have hn : n = 0 := Nat.le_zero.mp hf
    subst hn
    cases g <;> simp [to_digits_aux]
  | succ f ih =>
    intro g n hf hg
    cases g with
    | zero =>
      have hn : n = 0 := Nat.le_zero.mp hg
      subst hn
      simp [to_digits_aux]
    | succ g =>
      by_cases hn : n = 0
      · subst hn; simp [to_digits_aux]
      · have hlt : n / base < n := Nat.div_lt_self (Nat.pos_of_ne_zero hn) hb
        have h1 : n / base ≤ f := by omega
        have h2 : n / base ≤ g := by omega
        simp only [to_digits_aux, if_neg hn]
        rw [ih g (n / base) h1 h2]

theorem to_digits_aux_eq (base n : Nat) (hb : 2 ≤ base) (hn : n ≠ 0) :
    to_digits_aux base n n =
      to_digits_aux base (n / base) (n / base) ++ [digitChar (n % base)] := by
  cases n with
  | zero => exact absurd rfl hn
  | succ m =>
    have hlt : (m + 1) / base < m + 1 := Nat.div_lt_self (Nat.succ_pos m) hb
    simp only [to_digits_aux, if_neg hn]
    rw [to_digits_aux_congr base hb m ((m + 1) / base) ((m + 1) / base) (by omega) (le_refl _)]

theorem digitVal_digitChar : ∀ d, d < 16 → digitVal (digitChar d) = some d := by decide

theorem parse_digits_aux_append (base : Nat) (xs ys : List Char) :
    ∀ acc, parse_digits_aux base (xs ++ ys) acc =
      match parse_digits_aux base xs acc with
      | some a => parse_digits_aux base ys a
      | none => none := by
  induction xs with
  | nil => intro acc; rfl
  | cons c rest ih =>
    intro acc
    simp only [List.cons_append, parse_digits_aux]
    cases digitVal c with
    | none => rfl
    | some v =>
      by_cases hv : v < base
      · simp only [if_pos hv]; exact ih _
      · simp only [if_neg hv]

theorem parse_to_digits_aux (base : Nat) (hb : 2 ≤ base) (hb16 : base ≤ 16) :
    ∀ n acc, parse_digits_aux base (to_digits_aux base n n) acc =
      some (acc * base ^ (to_digits_aux base n n).length + n) := by
  intro n
  induction n using Nat.strong_induction_on with
  | _ n ih =>
    intro acc
    by_cases hn : n = 0
    · subst hn; simp [to_digits_aux, parse_digits_aux]
    · rw [to_digits_aux_eq base n hb hn]
      rw [parse_digits_aux_append]
      have hlt : n / base < n := Nat.div_lt_self (Nat.pos_of_ne_zero hn) hb
      rw [ih (n / base) hlt acc]
      have hdig : digitVal (digitChar (n % base)) = some (n % base) :=
        digitVal_digitChar _ (lt_of_lt_of_le (Nat.mod_lt n (by omega)) hb16)
      simp only [parse_digits_aux, hdig, if_pos (Nat.mod_lt n (by omega) : n % base < base)]
      congr 1
      have hdm : base * (n / base) + n % base = n := Nat.div_add_mod n base
      have hlen : (to_digits_aux base (n / base) (n / base) ++ [digitChar (n % base)]).length
          = (to_digits_aux base (n / base) (n / base)).length + 1 := by
        simp
      rw [hlen, pow_succ]
      ring_nf
      omega

theorem to_digits_aux_ne_nil (base n : Nat) (hb : 2 ≤ base) (hn : n ≠ 0) :
    to_digits_aux base n n ≠ [] := by
  rw [to_digits_aux_eq base n hb hn]
  simp

theorem parse_dec_repr (n : Nat) : parse_digits 10 (dec_repr n) = some n := by
  by_cases hn : n = 0
  · subst hn; decide
  · have hne := to_digits_aux_ne_nil 10 n (by omega) hn
    simp only [dec_repr, if_neg hn, parse_digits, List.isEmpty_eq_true, if_neg hne]
    have := parse_to_digits_aux 10 (by omega) (by omega) n 0
    simpa using this

theorem parse_hex_repr (n : Nat) : parse_digits 16 (hex_repr n) = some n := by
  by_cases hn : n = 0
  · subst hn; decide
  · have hne := to_digits_aux_ne_nil 16 n (by omega) hn
    simp only [hex_repr, if_neg hn, parse_digits, List.isEmpty_eq_true, if_neg hne]
    have := parse_to_digits_aux 16 (by omega) (by omega) n 0
    simpa using this

theorem digitChar_plain : ∀ d, d < 16 →
    (digitChar d ≠ '\n' ∧ (digitChar d).isWhitespace = false) := by decide

theorem to_digits_aux_chars (base : Nat) (hb : 2 ≤ base) (hb16 : base ≤ 16) :
    ∀ n c, c ∈ to_digits_aux base n n → ∃ d, d < 16 ∧ c = digitChar d := by
  intro n
  induction n using Nat.strong_induction_on with
  | _ n ih =>
    intro c hc
    by_cases hn : n = 0
    · subst hn; simp [to_digits_aux] at hc
    · rw [to_digits_aux_eq base n hb hn] at hc
      rcases List.mem_append.mp hc with h | h
      · exact ih (n / base) (Nat.div_lt_self (Nat.pos_of_ne_zero hn) hb) c h
      · refine ⟨n % base, lt_of_lt_of_le (Nat.mod_lt n (by omega)) hb16, ?_⟩
        simpa using h

theorem dec_repr_chars (n : Nat) :
    ∀ c ∈ dec_repr n, c ≠ '\n' ∧ c.isWhitespace = false := by
  intro c hc
  by_cases hn : n = 0
  · subst hn; simp [dec_repr] at hc; subst hc; decide
  · simp only [dec_repr, if_neg hn] at hc
    obtain ⟨d, hd, rfl⟩ := to_digits_aux_chars 10 (by omega) (by omega) n c hc
    exact digitChar_plain d hd

theorem from_bytes_be_append_singleton (bs : List Nat) (x : Nat) :
    from_bytes_be (bs ++ [x]) = from_bytes_be bs * 256 + x := by
  induction bs with
  | nil => simp [from_bytes_be]
  | cons b rest ih =>
    show b * 256 ^ (rest ++ [x]).length + from_bytes_be (rest ++ [x])
        = (b * 256 ^ rest.length + from_bytes_be rest) * 256 + x
    rw [ih, List.length_append]
    simp only [List.length_cons, List.length_nil, Nat.zero_add]
    ring

theorem from_bytes_be_eq_zero_iff (bs : List Nat) :
    from_bytes_be bs = 0 ↔ ∀ x ∈ bs, x = 0 := by
  induction bs with
  | nil => simp [from_bytes_be]
  | cons b rest ih =>
    simp only [from_bytes_be, List.mem_cons]
    constructor
    · intro h
      have hp : 256 ^ rest.length ≠ 0 := by positivity
      have hb : b = 0 := by
        rcases Nat.add_eq_zero.mp h with ⟨h1, _⟩
        rcases Nat.mul_eq_zero.mp h1 with h2 | h2
        · exact h2
        · exact absurd h2 hp
      have hr : from_bytes_be rest = 0 := by omega
      intro x hx
      rcases hx with rfl | hx
      · exact hb
      · exact ih.mp hr x hx
    · intro h
      have hb : b = 0 := h b (Or.inl rfl)
      have hr : from_bytes_be rest = 0 := ih.mpr fun x hx => h x (Or.inr hx)
      simp [hb, hr]

theorem from_bytes_be_lt (bs : List Nat) (h : ∀ x ∈ bs, x < 256) :
    from_bytes_be bs < 256 ^ bs.length := by
  induction bs with
  | nil => simp [from_bytes_be]
  | cons b rest ih =>
    simp only [from_bytes_be, List.length_cons, pow_succ]
    have hb : b < 256 := h b (List.mem_cons_self _ _)
    have hr : from_bytes_be rest < 256 ^ rest.length :=
      ih fun x hx => h x (List.mem_cons_of_mem _ hx)
    calc b * 256 ^ rest.length + from_bytes_be rest
        < b * 256 ^ rest.length + 256 ^ rest.length := by omega
      _ = (b + 1) * 256 ^ rest.length := by ring
      _ ≤ 256 * 256 ^ rest.length := by
          exact Nat.mul_le_mul_right _ (by omega)
      _ = 256 ^ rest.length * 256 := by ring

theorem to_bytes_aux_congr :
    ∀ f g n, n ≤ f → n ≤ g → to_bytes_aux f n = to_bytes_aux g n := by
  intro f
  induction f with
  | zero =>
    intro g n hf _
    have hn : n = 0 := Nat.le_zero.mp hf
    subst hn
    cases g <;> simp [to_bytes_aux]
  | succ f ih =>
    intro g n hf hg
    cases g with
    | zero =>
      have hn : n = 0 := Nat.le_zero.mp hg
      subst hn
      simp [to_bytes_aux]
    | succ g =>
      by_cases hn : n = 0
      · subst hn; simp [to_bytes_aux]
      · have hlt : n / 256 < n := Nat.div_lt_self (Nat.pos_of_ne_zero hn) (by omega)
        simp only [to_bytes_aux, if_neg hn]
        rw [ih g (n / 256) (by omega) (by omega)]

theorem to_bytes_aux_eq (n : Nat) (hn : n ≠ 0) :
    to_bytes_aux n n = to_bytes_aux (n / 256) (n / 256) ++ [n % 256] := by
  cases n with
  | zero => exact absurd rfl hn
  | succ m =>
    have hlt : (m + 1) / 256 < m + 1 := Nat.div_lt_self (Nat.succ_pos m) (by omega)
    simp only [to_bytes_aux, if_neg hn]
    rw [to_bytes_aux_congr m ((m + 1) / 256) ((m + 1) / 256) (by omega) (le_refl _)]

theorem to_bytes_aux_from_bytes (bs : List Nat) (h : ∀ x ∈ bs, x < 256) :
    to_bytes_aux (from_bytes_be bs) (from_bytes_be bs) = bs.dropWhile (· = 0) := by
  induction bs using List.reverseRecOn with
  | nil => simp [from_bytes_be, to_bytes_aux]
  | append_singleton bs x ih =>
    have hx : x < 256 := h x (by simp)
    have hbs : ∀ y ∈ bs, y < 256 := fun y hy => h y (by simp [hy])
    rw [from_bytes_be_append_singleton]
    by_cases hall : ∀ y ∈ bs, y = 0
    · have hv : from_bytes_be bs = 0 := (from_bytes_be_eq_zero_iff bs).mpr hall
      rw [hv]
      have hdw : bs.dropWhile (· = 0) = [] := by
        rw [List.dropWhile_eq_nil_iff]
        intro y hy
        simp [hall y hy]
      rw [List.dropWhile_append, hdw]
      by_cases hx0 : x = 0
      · subst hx0; simp [to_bytes_aux]
      · have : (0 * 256 + x) ≠ 0 := by omega
        rw [to_bytes_aux_eq _ (by omega)]
        have h1 : (0 * 256 + x) / 256 = 0 := by omega
        have h2 : (0 * 256 + x) % 256 = x := by omega
        rw [h1, h2]
        simp [to_bytes_aux, List.dropWhile, hx0, decide_eq_true_eq]
    · have hv : from_bytes_be bs ≠ 0 := fun h0 => hall ((from_bytes_be_eq_zero_iff bs).mp h0)
      have hval : from_bytes_be bs * 256 + x ≠ 0 := by
        intro h0
        exact hv (by omega)
      rw [to_bytes_aux_eq _ hval]
      have h1 : (from_bytes_be bs * 256 + x) / 256 = from_bytes_be bs := by omega
      have h2 : (from_bytes_be bs * 256 + x) % 256 = x := by omega
      rw [h1, h2, ih hbs]
      have hdw : bs.dropWhile (· = 0) ≠ [] := by
        rw [Ne, List.dropWhile_eq_nil_iff]
        intro hc
        exact hall fun y hy => by simpa using hc y hy
      rw [List.dropWhile_append]
      simp only [List.isEmpty_iff, if_neg hdw]

theorem to_bytes_be_from_bytes (bs : List Nat) (h : ∀ x ∈ bs, x < 256) :
    to_bytes_be (from_bytes_be bs) =
      if ∀ x ∈ bs, x = 0 then [0] else bs.dropWhile (· = 0) := by
  by_cases hall : ∀ x ∈ bs, x = 0
  · rw [if_pos hall, to_bytes_be, if_pos ((from_bytes_be_eq_zero_iff bs).mpr hall)]
  · have hv : from_bytes_be bs ≠ 0 := fun h0 => hall ((from_bytes_be_eq_zero_iff bs).mp h0)
    rw [if_neg hall, to_bytes_be, if_neg hv]
    exact to_bytes_aux_from_bytes bs h

theorem bits_aux_congr :
    ∀ f g n, n ≤ f → n ≤ g → bits_aux f n = bits_aux g n := by
  intro f
  induction f with
  | zero =>
    intro g n hf _
    have hn : n = 0 := Nat.le_zero.mp hf
    subst hn
    cases g <;> simp [bits_aux]
  | succ f ih =>
    intro g n hf hg
    cases g with
    | zero =>
      have hn : n = 0 := Nat.le_zero.mp hg
      subst hn
      simp [bits_aux]
    | succ g =>
      by_cases hn : n = 0
      · subst hn; simp [bits_aux]
      · have hlt : n / 2 < n := Nat.div_lt_self (Nat.pos_of_ne_zero hn) (by omega)
        simp only [bits_aux, if_neg hn]
        rw [ih g (n / 2) (by omega) (by omega)]

theorem bits_eq (n : Nat) (hn : n ≠ 0) : bits n = bits (n / 2) + 1 := by
  cases n with
  | zero => exact absurd rfl hn
  | succ m =>
    have hlt : (m + 1) / 2 < m + 1 := Nat.div_lt_self (Nat.succ_pos m) (by omega)
    show bits_aux (m + 1) (m + 1) = bits ((m + 1) / 2) + 1
    simp only [bits_aux, if_neg hn, bits]
    rw [bits_aux_congr m ((m + 1) / 2) ((m + 1) / 2) (by omega) (le_refl _)]

theorem bits_pos (n : Nat) (hn : 1 ≤ n) : 1 ≤ bits n := by
  rw [bits_eq n (by omega)]
  omega

theorem two_pow_bits_pred_le (n : Nat) (hn : 1 ≤ n) : 2 ^ (bits n - 1) ≤ n := by
  induction n using Nat.strong_induction_on with
  | _ n ih =>
    by_cases h1 : n / 2 = 0
    · have h2 : n = 1 := by omega
      subst h2
      decide
    · have hlt : n / 2 < n := Nat.div_lt_self (by omega) (by omega)
      have hrec := ih (n / 2) hlt (by omega)
      have hp := bits_pos (n / 2) (by omega)
      rw [bits_eq n (by omega), Nat.add_sub_cancel]
      obtain ⟨j, hj⟩ : ∃ j, bits (n / 2) = j + 1 := ⟨bits (n / 2) - 1, by omega⟩
      rw [hj] at hrec ⊢
      simp only [Nat.add_sub_cancel] at hrec
      calc 2 ^ (j + 1) = 2 ^ j * 2 := pow_succ 2 j
        _ ≤ n / 2 * 2 := Nat.mul_le_mul_right 2 hrec
        _ ≤ n := Nat.div_mul_le_self n 2

theorem collect_bytes_eq_take : ∀ (buf : List Nat) (k : Nat), collect_bytes buf k = buf.take k := by
  intro buf
  induction buf with
  | nil => intro k; cases k <;> simp [collect_bytes]
  | cons b rest ih =>
    intro k
    cases k with
    | zero => simp [collect_bytes]
    | succ k => simp [collect_bytes, ih]

theorem dropWhile_ws_of_none (s : List Char) (h : ∀ c ∈ s, c.isWhitespace = false) :
    s.dropWhile Char.isWhitespace = s := by
  cases s with
  | nil => rfl
  | cons c rest =>
    rw [List.dropWhile_cons_of_neg]
    simp [h c (List.mem_cons_self _ _)]

theorem trimChars_of_plain (s : List Char) (h : ∀ c ∈ s, c.isWhitespace = false) :
    trimChars s = s := by
  unfold trimChars
  rw [dropWhile_ws_of_none s h]
  rw [dropWhile_ws_of_none s.reverse (fun c hc => h c (List.mem_reverse.mp hc))]
  exact List.reverse_reverse s

theorem splitOnChar_no_sep_append (sep : Char) (xs : List Char)
    (h : ∀ c ∈ xs, c ≠ sep) :
    splitOnChar sep (xs ++ [sep]) = [xs, []] := by
  induction xs with
  | nil => simp [splitOnChar]
  | cons c rest ih =>
    have hc : c ≠ sep := h c (List.mem_cons_self _ _)
    have htail := ih fun x hx => h x (List.mem_cons_of_mem _ hx)
    simp only [List.cons_append, splitOnChar, if_neg hc, List.append_eq, htail]

theorem read_lines_single (xs : List Char) (h : ∀ c ∈ xs, c ≠ '\n') :
    read_lines (xs ++ ['\n']) = [xs] := by
  unfold read_lines
  rw [splitOnChar_no_sep_append '\n' xs h]
  simp

theorem range_map_getD (k : Nat) (m : List Nat) :
    (List.range k).map (fun j => m.getD j 0) = m.take k ++ List.replicate (k - m.length) 0 := by
  induction m generalizing k with
  | nil => simp [List.map_const']
  | cons a t ih =>
    cases k with
    | zero => simp
    | succ k =>
      rw [List.range_succ_eq_map, List.map_cons, List.map_map]
      have hcomp : ((fun j => List.getD (a :: t) j 0) ∘ Nat.succ) = fun j => t.getD j 0 := by
        funext j
        simp [Function.comp]
      rw [hcomp, ih k]
      simp only [List.getD_cons_zero, List.take_succ_cons, List.cons_append]
      have hsub : k + 1 - (a :: t).length = k - t.length := by
        simp only [List.length_cons]
        omega
      rw [hsub]

theorem aes_block_zero (m : List Nat) :
    aes_block m 0 = m.take 16 ++ List.replicate (16 - m.length) 0 := by
  unfold aes_block
  have : (fun j => m.getD (0 * 16 + j) 0) = fun j => m.getD j 0 := by
    funext j; simp
  rw [this, range_map_getD]

theorem aes_block_succ (m : List Nat) (i : Nat) :
    aes_block m (i + 1) = aes_block (m.drop 16) i := by
  unfold aes_block
  congr 1
  funext j
  have h1 : (m.drop 16).getD (i * 16 + j) 0 = m.getD (16 + (i * 16 + j)) 0 := by
    simp only [List.getD_eq_getElem?_getD, List.getElem?_drop]
  rw [h1]
  congr 1
  ring

theorem aes_block_length (m : List Nat) (i : Nat) : (aes_block m i).length = 16 := by
  simp [aes_block]

theorem chunks_flatten_aux :
    ∀ (n : Nat) (m : List Nat), m.length ≤ n →
      ((List.range (m.length / 16 + if m.length % 16 > 0 then 1 else 0)).map
        (aes_block m)).flatten = zero_pad m := by
  intro n
  induction n with
  | zero =>
    intro m hm
    rw [List.length_eq_zero.mp (Nat.le_zero.mp hm)]
    decide
  | succ n ih =>
    intro m hm
    by_cases h0 : m.length = 0
    · rw [List.length_eq_zero.mp h0]
      decide
    · by_cases h16 : m.length ≤ 16
      · have htot : m.length / 16 + (if m.length % 16 > 0 then 1 else 0) = 1 := by
          by_cases hmod : m.length % 16 > 0 <;> simp [hmod] <;> omega
        rw [htot]
        have hrange : List.range 1 = [0] := rfl
        rw [hrange, List.map_cons, List.map_nil, List.flatten_cons, List.flatten_nil,
          List.append_nil, aes_block_zero, List.take_of_length_le h16]
        unfold zero_pad
        congr 1
        congr 1
        omega
      · have hd : (m.drop 16).length = m.length - 16 := by simp
        have htot : m.length / 16 + (if m.length % 16 > 0 then 1 else 0)
            = ((m.drop 16).length / 16 + (if (m.drop 16).length % 16 > 0 then 1 else 0)) + 1 := by
          rw [hd]
          have hmod : (m.length - 16) % 16 = m.length % 16 := by omega
          rw [hmod]
          by_cases hm16 : m.length % 16 > 0 <;> simp [hm16] <;> omega
        rw [htot, List.range_succ_eq_map, List.map_cons, List.map_map, List.flatten_cons]
        have hcomp : (aes_block m ∘ Nat.succ) = aes_block (m.drop 16) := by
          funext i
          exact aes_block_succ m i
        rw [hcomp]
        have hih := ih (m.drop 16) (by rw [hd]; omega)
        rw [hih, aes_block_zero]
        have hrep : 16 - m.length = 0 := by omega
        rw [hrep, List.replicate_zero, List.append_nil]
        unfold zero_pad
        rw [← List.append_assoc, List.take_append_drop]
        congr 2
        rw [hd]
        omega

theorem chunks_flatten (m : List Nat) :
    ((List.range (m.length / 16 + if m.length % 16 > 0 then 1 else 0)).map
      (aes_block m)).flatten = zero_pad m :=
  chunks_flatten_aux m.length m (le_refl _)

theorem aes_encrypt_decrypt (encB decB : List Nat → List Nat → List Nat)
    (hinv : ∀ key bl, bl.length = 16 → decB key (encB key bl) = bl)
    (k : AESManager) (m : List Nat) :
    k.decrypt decB (k.encrypt encB m) = zero_pad m := by
  unfold AESManager.decrypt AESManager.encrypt
  rw [List.map_map]
  have hcomp : ∀ i ∈ List.range (m.length / 16 + if m.length % 16 > 0 then 1 else 0),
      (decB k.key_value ∘ fun i => encB k.key_value (aes_block m i)) i = aes_block m i := by
    intro i _
    exact hinv k.key_value (aes_block m i) (aes_block_length m i)
  rw [List.map_congr_left hcomp]
  exact chunks_flatten m

theorem rsa_prime_round (p m x : Nat) (hp : p.Prime) (hm : (p - 1) ∣ (m - 1))
    (hm1 : 1 ≤ m) : x ^ m ≡ x [MOD p] := by
  by_cases hdvd : p ∣ x
  · have hx0 : x ≡ 0 [MOD p] := (Nat.modEq_zero_iff_dvd).mpr hdvd
    have hxm : x ^ m ≡ 0 [MOD p] :=
      (Nat.modEq_zero_iff_dvd).mpr (dvd_pow hdvd (by omega))
    exact hxm.trans hx0.symm
  · have hco : Nat.Coprime x p := (hp.coprime_iff_not_dvd.mpr hdvd).symm
    have hferm : x ^ (p - 1) ≡ 1 [MOD p] := by
      have := Nat.ModEq.pow_totient hco
      rwa [Nat.totient_prime hp] at this
    obtain ⟨c, hc⟩ := hm
    have hmc : m = (p - 1) * c + 1 := by
      have hp2 := hp.two_le
      omega
    calc x ^ m = (x ^ (p - 1)) ^ c * x := by
          rw [hmc, pow_add, pow_mul, pow_one]
      _ ≡ 1 ^ c * x [MOD p] := (hferm.pow c).mul_right x
      _ = x := by ring

theorem rsa_roundtrip_math (p q e d x : Nat) (hp : p.Prime) (hq : q.Prime)
    (hne : p ≠ q) (hed : e * d ≡ 1 [MOD Nat.lcm (p - 1) (q - 1)]) (hx : x < p * q) :
    modpow (modpow x e (p * q)) d (p * q) = x := by
  have hed1 : 1 ≤ e * d := by
    by_contra hcon
    have hed0 : e * d = 0 := by omega
    rw [hed0] at hed
    have hdvd1 : Nat.lcm (p - 1) (q - 1) ∣ 1 := (Nat.modEq_iff_dvd' (by omega)).mp hed
    have hp1 : (p - 1) ∣ 1 := dvd_trans (Nat.dvd_lcm_left _ _) hdvd1
    have hq1 : (q - 1) ∣ 1 := dvd_trans (Nat.dvd_lcm_right _ _) hdvd1
    have hp2 := hp.two_le
    have hq2 := hq.two_le
    have hpe : p = 2 := by
      have := Nat.le_of_dvd (by omega) hp1
      omega
    have hqe : q = 2 := by
      have := Nat.le_of_dvd (by omega) hq1
      omega
    exact hne (hpe.trans hqe.symm)
  have hlcm : Nat.lcm (p - 1) (q - 1) ∣ (e * d - 1) :=
    (Nat.modEq_iff_dvd' hed1).mp hed.symm
  have hroundp : x ^ (e * d) ≡ x [MOD p] :=
    rsa_prime_round p (e * d) x hp (dvd_trans (Nat.dvd_lcm_left _ _) hlcm) hed1
  have hroundq : x ^ (e * d) ≡ x [MOD q] :=
    rsa_prime_round q (e * d) x hq (dvd_trans (Nat.dvd_lcm_right _ _) hlcm) hed1
  have hco : Nat.Coprime p q := (Nat.coprime_primes hp hq).mpr hne
  have hround : x ^ (e * d) ≡ x [MOD p * q] :=
    (Nat.modEq_and_modEq_iff_modEq_mul hco).mp ⟨hroundp, hroundq⟩
  have hmodeq : (x ^ e % (p * q)) ^ d ≡ x [MOD p * q] := by
    calc (x ^ e % (p * q)) ^ d ≡ (x ^ e) ^ d [MOD p * q] := (Nat.mod_modEq _ _).pow d
      _ = x ^ (e * d) := by rw [← pow_mul]
      _ ≡ x [MOD p * q] := hround
  show (x ^ e % (p * q)) ^ d % (p * q) = x
  have := hmodeq
  unfold Nat.ModEq at this
  rw [this, Nat.mod_eq_of_lt hx]

theorem natAbs_tmod_lt (b a : Int) (h : a ≠ 0) : (Int.tmod b a).natAbs < a.natAbs := by
  cases b with
  | ofNat m =>
    cases a with
    | ofNat n =>
      have hn : 0 < n := by
        rcases Nat.eq_zero_or_pos n with h0 | h0
        · exact absurd (by simp [h0]) h
        · exact h0
      show (Int.ofNat (m % n)).natAbs < (Int.ofNat n).natAbs
      simpa using Nat.mod_lt m hn
    | negSucc n =>
      show (Int.ofNat (m % (n + 1))).natAbs < (Int.negSucc n).natAbs
      simpa using Nat.mod_lt m (Nat.succ_pos n)
  | negSucc m =>
    cases a with
    | ofNat n =>
      have hn : 0 < n := by
        rcases Nat.eq_zero_or_pos n with h0 | h0
        · exact absurd (by simp [h0]) h
        · exact h0
      show (-Int.ofNat ((m + 1) % n)).natAbs < (Int.ofNat n).natAbs
      rw [Int.natAbs_neg]
      simpa using Nat.mod_lt (m + 1) hn
    | negSucc n =>
      show (-Int.ofNat ((m + 1) % (n + 1))).natAbs < (Int.negSucc n).natAbs
      rw [Int.natAbs_neg]
      simpa using Nat.mod_lt (m + 1) (Nat.succ_pos n)

theorem egcd_aux_congr :
    ∀ f g (a b : Int), a.natAbs < f → a.natAbs < g → egcd_aux f a b = egcd_aux g a b := by
  intro f
  induction f with
  | zero => intro g a b hf _; omega
  | succ f ih =>
    intro g a b hf hg
    cases g with
    | zero => omega
    | succ g =>
      by_cases ha : a = 0
      · subst ha; simp [egcd_aux]
      · simp only [egcd_aux, if_neg ha]
        have hlt := natAbs_tmod_lt b a ha
        rw [ih g (Int.tmod b a) a (by omega) (by omega)]

theorem egcd_eq (a b : Int) :
    egcd a b =
      if a = 0 then (b, 0, 1)
      else
        let r := egcd (Int.tmod b a) a
        (r.1, r.2.2 - Int.tdiv b a * r.2.1, r.2.1) := by
  by_cases ha : a = 0
  · subst ha; simp [egcd, egcd_aux]
  · rw [if_neg ha]
    have hlt := natAbs_tmod_lt b a ha
    have hstep : egcd a b =
        ((egcd_aux a.natAbs (Int.tmod b a) a).1,
         (egcd_aux a.natAbs (Int.tmod b a) a).2.2
           - Int.tdiv b a * (egcd_aux a.natAbs (Int.tmod b a) a).2.1,
         (egcd_aux a.natAbs (Int.tmod b a) a).2.1) := by
      show egcd_aux (a.natAbs + 1) a b = _
      simp only [egcd_aux, if_neg ha]
    rw [hstep,
      egcd_aux_congr a.natAbs ((Int.tmod b a).natAbs + 1) (Int.tmod b a) a (by omega) (by omega)]
    rfl

theorem egcd_spec_aux :
    ∀ (k : Nat) (a b : Int), a.natAbs ≤ k → 0 ≤ a → 0 ≤ b →
      (egcd a b).1 = (Int.gcd a b : Int) ∧
      a * (egcd a b).2.1 + b * (egcd a b).2.2 = (Int.gcd a b : Int) := by
  intro k
  induction k with
  | zero =>
    intro a b hk _ hb
    have ha0 : a = 0 := Int.natAbs_eq_zero.mp (Nat.le_zero.mp hk)
    subst ha0
    rw [egcd_eq]
    simp only [if_pos rfl]
    have hg : (Int.gcd 0 b : Int) = b := by
      rw [Int.gcd]
      simp [Int.natAbs_of_nonneg hb]
    constructor
    · exact hg.symm
    · simpa using hg.symm
  | succ k ih =>
    intro a b hk ha hb
    by_cases ha0 : a = 0
    · subst ha0
      rw [egcd_eq]
      simp only [if_pos rfl]
      have hg : (Int.gcd 0 b : Int) = b := by
        rw [Int.gcd]
        simp [Int.natAbs_of_nonneg hb]
      constructor
      · exact hg.symm
      · simpa using hg.symm
    · have hapos : 0 < a := lt_of_le_of_ne ha (Ne.symm ha0)
      have ht : Int.tmod b a = b % a := Int.tmod_eq_emod hb ha
      have ht0 : 0 ≤ Int.tmod b a := ht ▸ Int.emod_nonneg b (ne_of_gt hapos)
      have hklt : (Int.tmod b a).natAbs ≤ k := by
        have h1 := natAbs_tmod_lt b a ha0
        omega
      obtain ⟨hg, hbez⟩ := ih (Int.tmod b a) a hklt ht0 ha
      have hgcd : Int.gcd (Int.tmod b a) a = Int.gcd a b := by
        obtain ⟨m, rfl⟩ := Int.eq_ofNat_of_zero_le ha
        obtain ⟨n, rfl⟩ := Int.eq_ofNat_of_zero_le hb
        show Int.gcd (Int.ofNat (n % m)) (Int.ofNat m) = Int.gcd (Int.ofNat m) (Int.ofNat n)
        show Nat.gcd (n % m) m = Nat.gcd m n
        exact (Nat.gcd_rec m n).symm
      rw [egcd_eq, if_neg ha0]
      refine ⟨?_, ?_⟩
      · show (egcd (Int.tmod b a) a).1 = (Int.gcd a b : Int)
        rw [hg, hgcd]
      · show a * ((egcd (Int.tmod b a) a).2.2 - Int.tdiv b a * (egcd (Int.tmod b a) a).2.1)
            + b * (egcd (Int.tmod b a) a).2.1 = (Int.gcd a b : Int)
        have htdef : Int.tmod b a = b - a * Int.tdiv b a := Int.tmod_def b a
        calc a * ((egcd (Int.tmod b a) a).2.2 - Int.tdiv b a * (egcd (Int.tmod b a) a).2.1)
              + b * (egcd (Int.tmod b a) a).2.1
            = (b - a * Int.tdiv b a) * (egcd (Int.tmod b a) a).2.1
              + a * (egcd (Int.tmod b a) a).2.2 := by ring
          _ = Int.tmod b a * (egcd (Int.tmod b a) a).2.1
              + a * (egcd (Int.tmod b a) a).2.2 := by rw [← htdef]
          _ = (Int.gcd (Int.tmod b a) a : Int) := hbez
          _ = (Int.gcd a b : Int) := by rw [hgcd]

theorem egcd_spec (a b : Int) (ha : 0 ≤ a) (hb : 0 ≤ b) :
    (egcd a b).1 = (Int.gcd a b : Int) ∧
    a * (egcd a b).2.1 + b * (egcd a b).2.2 = (Int.gcd a b : Int) :=
  egcd_spec_aux a.natAbs a b (le_refl _) ha hb

/-! ## Claim theorems -/

/-- C1 (code bug): the handshake cannot succeed.  The client's
`send_public_key` writes the `Display` form `RSA:(n, e)`, but the server's
`receive_public_key` parses with `From<S> for PublicKey`, which expects
`n e` and fails on the parenthesised text; the server therefore returns an
error before any AES manager is produced.  Shown here at the concrete
public key `(e, n) = (5, 323)`: receiving the very line that
`send_public_key` emits yields a parse failure. -/
theorem c1_handshake_key_exchange_fails :
    receive_public_key (send_public_key_line ⟨5, 323⟩) = none := by decide

/-- C2 (code bug): `Display for PublicKey` writes `(n, e)` — parenthesised
and comma-separated — not the `n e` form the spec, the parser, and the
parser's own doc comment state; parsing the actual serialized form fails,
while parsing the claimed form `323 5` recovers the key. -/
theorem c2_public_key_serialization_bug :
    display_public_key ⟨5, 323⟩ = "(323, 5)".data ∧
    display_public_key ⟨5, 323⟩ ≠ "323 5".data ∧
    public_key_from_str (display_public_key ⟨5, 323⟩) = none ∧
    public_key_from_str "323 5".data = some ⟨5, 323⟩ := by decide

/-- C3 (counterexample): for a 128-bit key whose leading byte is zero the
hex serialization drops that byte, so parsing fails with a length error —
the claim's universally quantified round trip is false. -/
theorem c3_counterexample :
    (⟨0 :: List.replicate 15 7⟩ : AESManager).key_value.length = 16 ∧
    aes_manager_from_str (AESManager.parsable_string ⟨0 :: List.replicate 15 7⟩) = none := by
  decide

/-- C3 (amended): for every AES key manager of 16, 24 or 32 key bytes whose
first key byte is nonzero, parsing the lowercase-hex serialization returns
a manager with identical key bytes, and (the block cipher being a function
of those bytes) its decrypt inverts the original manager's encrypt up to
zero padding. -/
theorem c3_amended (kv : List Nat)
    (hlen : kv.length = 16 ∨ kv.length = 24 ∨ kv.length = 32)
    (hbytes : ∀ x ∈ kv, x < 256)
    (hhead : kv.head? ≠ some 0) :
    aes_manager_from_str (AESManager.parsable_string ⟨kv⟩) = some ⟨kv⟩ ∧
    ∀ encB decB : List Nat → List Nat → List Nat,
      (∀ key bl, bl.length = 16 → decB key (encB key bl) = bl) →
      ∀ m, AESManager.decrypt decB ⟨kv⟩ (AESManager.encrypt encB ⟨kv⟩ m) = zero_pad m := by
  constructor
  · obtain ⟨h0, t, rfl⟩ : ∃ h0 t, kv = h0 :: t := by
      cases kv with
      | nil => simp at hlen
      | cons h0 t => exact ⟨h0, t, rfl⟩
    have hne : h0 ≠ 0 := by
      intro hz
      subst hz
      exact hhead rfl
    have hnz : ¬ ∀ x ∈ h0 :: t, x = 0 := fun hall => hne (hall h0 (List.mem_cons_self _ _))
    simp only [aes_manager_from_str, AESManager.parsable_string, parse_hex_repr]
    rw [to_bytes_be_from_bytes _ hbytes, if_neg hnz]
    have hdrop : (h0 :: t).dropWhile (· = 0) = h0 :: t := by
      rw [List.dropWhile_cons_of_neg]
      simp [hne]
    rw [hdrop]
    rcases hlen with h | h | h <;> rw [if_pos (by omega)]
  · intro encB decB hinv m
    exact aes_encrypt_decrypt encB decB hinv ⟨kv⟩ m

/-- C3 witness: a concrete 16-byte key with nonzero first byte round-trips
and the (identity-cipher) decrypt-of-encrypt gives the padded message. -/
theorem c3_witness :
    aes_manager_from_str (AESManager.parsable_string ⟨1 :: List.replicate 15 2⟩)
      = some ⟨1 :: List.replicate 15 2⟩ ∧
    AESManager.decrypt (fun _ bl => bl) ⟨1 :: List.replicate 15 2⟩
        (AESManager.encrypt (fun _ bl => bl) ⟨1 :: List.replicate 15 2⟩ [9])
      = zero_pad [9] := by
  have h := c3_amended (1 :: List.replicate 15 2) (by decide) (by decide) (by decide)
  exact ⟨h.1, h.2 _ _ (fun _ _ _ => rfl) [9]⟩

/-- C4 (counterexample): the triple `(e, d, n) = (2, 2, 7)` passes the
code's own validity probe (`m = 2` round-trips), yet the plaintext `3 < 7`
does not round-trip — the claim is false for arbitrary triples. -/
theorem c4_counterexample :
    rsa_keys_valid 2 2 7 = true ∧ 3 < 7 ∧
    ((RSAMessage.Decrypted 3).encrypt ⟨2, 7⟩).decrypt ⟨2, 7⟩ ≠ RSAMessage.Decrypted 3 := by
  decide

/-- C4 (amended): for every genuine RSA triple — `n = p * q` with `p, q`
distinct primes and `e * d ≡ 1` modulo `lcm (p-1) (q-1)`, which is what the
generator constructs — and every plaintext `x < n`, decrypt of encrypt is
the identity. -/
theorem c4_amended (p q e d x : Nat) (hp : p.Prime) (hq : q.Prime) (hne : p ≠ q)
    (hed : e * d ≡ 1 [MOD Nat.lcm (p - 1) (q - 1)]) (hx : x < p * q) :
    ((RSAMessage.Decrypted x).encrypt ⟨e, p * q⟩).decrypt ⟨d, p * q⟩ = RSAMessage.Decrypted x := by
  show RSAMessage.Decrypted (modpow (modpow x e (p * q)) d (p * q)) = RSAMessage.Decrypted x
  rw [rsa_roundtrip_math p q e d x hp hq hne hed hx]

/-- C4 witness: concrete instance `p = 3`, `q = 5`, `e = d = 3`, `x = 7`. -/
theorem c4_witness :
    Nat.Prime 3 ∧ Nat.Prime 5 ∧ (3 : Nat) ≠ 5 ∧ 3 * 3 ≡ 1 [MOD Nat.lcm 2 4] ∧ 7 < 3 * 5 ∧
    ((RSAMessage.Decrypted 7).encrypt ⟨3, 3 * 5⟩).decrypt ⟨3, 3 * 5⟩ = RSAMessage.Decrypted 7 :=
  ⟨by norm_num, by norm_num, by decide, by decide, by decide,
   c4_amended 3 5 3 3 7 (by norm_num) (by norm_num) (by decide) (by decide) (by decide)⟩

/-- C5: for every AES key manager (any block cipher that inverts on
16-byte blocks, as the `aes` crate guarantees) and every byte sequence,
decrypt of encrypt is the message zero-padded to the next multiple of 16,
hence the message itself when its length is a multiple of 16. -/
theorem c5_aes_roundtrip (encB decB : List Nat → List Nat → List Nat)
    (hinv : ∀ key bl, bl.length = 16 → decB key (encB key bl) = bl)
    (k : AESManager) (m : List Nat) :
    k.decrypt decB (k.encrypt encB m) = zero_pad m ∧
    (m.length % 16 = 0 → k.decrypt decB (k.encrypt encB m) = m) := by
  have h := aes_encrypt_decrypt encB decB hinv k m
  refine ⟨h, fun hm => ?_⟩
  rw [h]
  simp [zero_pad, hm]

/-- C5 witness: identity block cipher, message `[1, 2, 3]`. -/
theorem c5_witness :
    AESManager.decrypt (fun _ bl => bl) ⟨[]⟩
        (AESManager.encrypt (fun _ bl => bl) ⟨[]⟩ [1, 2, 3]) = zero_pad [1, 2, 3] :=
  (c5_aes_roundtrip (fun _ bl => bl) (fun _ bl => bl) (fun _ _ _ => rfl) ⟨[]⟩ [1, 2, 3]).1

/-- C6: one `RSAWriter::write(buf)` consumes exactly
`min (len buf) max_message_size` leading bytes, where `max_message_size`
is `(bits n - 1) / 8`, writes the decimal ciphertext of their big-endian
value followed by exactly one newline, and returns the consumed count. -/
theorem c6_rsa_writer (pk : PublicKey) (buf : List Nat) (_hn : 1 ≤ pk.n_value) :
    (rsa_writer_write pk buf).2 = min buf.length pk.max_message_size ∧
    (rsa_writer_write pk buf).1 =
      dec_repr (modpow (from_bytes_be (buf.take pk.max_message_size)) pk.key pk.n_value)
        ++ ['\n'] ∧
    pk.max_message_size = (bits pk.n_value - 1) / 8 := by
  refine ⟨?_, ?_, rfl⟩
  · show (collect_bytes buf pk.max_message_size).length = min buf.length pk.max_message_size
    rw [collect_bytes_eq_take, List.length_take, Nat.min_comm]
  · show dec_repr (modpow (from_bytes_be (collect_bytes buf pk.max_message_size))
        pk.key pk.n_value) ++ "\n".data = _
    rw [collect_bytes_eq_take]

/-- C6 witness: key `(5, 323)` (so `max_message_size = 1`), buffer of three
bytes. -/
theorem c6_witness :
    1 ≤ (323 : Nat) ∧
    (rsa_writer_write ⟨5, 323⟩ [1, 2, 3]).2
      = min ([1, 2, 3] : List Nat).length (PublicKey.max_message_size ⟨5, 323⟩) ∧
    (rsa_writer_write ⟨5, 323⟩ [1, 2, 3]).1 =
      dec_repr (modpow (from_bytes_be (([1, 2, 3] : List Nat).take
        (PublicKey.max_message_size ⟨5, 323⟩))) 5 323) ++ ['\n'] :=
  ⟨by decide, (c6_rsa_writer ⟨5, 323⟩ [1, 2, 3] (by decide)).1,
   (c6_rsa_writer ⟨5, 323⟩ [1, 2, 3] (by decide)).2.1⟩

/-- C7 (counterexample): on an empty first line there is no first token at
all (so the first token is certainly not `COM_BEGIN`), yet `server_ack`
indexes `split[0]` and panics instead of returning successfully. -/
theorem c7_counterexample :
    (split_whitespace "".data).head? ≠ some "COM_BEGIN".data ∧
    server_ack "".data ≠ some [] ∧
    server_ack "".data = none := by decide

/-- C7 (amended): for every first line that has at least one
whitespace-separated token, if that token differs from `COM_BEGIN` the
server writes nothing and returns successfully; an empty or all-whitespace
line instead panics on `split[0]`. -/
theorem c7_amended (line t : List Char) (ts : List (List Char))
    (hsplit : split_whitespace line = t :: ts) (ht : t ≠ "COM_BEGIN".data) :
    server_ack line = some [] := by
  unfold server_ack
  rw [hsplit]
  simp [ht]

/-- C7 witness: the line `HELLO world`. -/
theorem c7_witness :
    split_whitespace "HELLO world".data = ["HELLO".data, "world".data] ∧
    "HELLO".data ≠ "COM_BEGIN".data ∧
    server_ack "HELLO world".data = some [] :=
  ⟨by decide, by decide,
   c7_amended "HELLO world".data "HELLO".data ["world".data] (by decide) (by decide)⟩

theorem is_prime_odd (n : Nat) (hn : n % 2 = 1) (ws : List Nat) :
    is_prime_probabilistic n ws
      = ws.all fun a => mr_round n (decompose (n - 1)).1 (decompose (n - 1)).2 a := by
  unfold is_prime_probabilistic
  rw [if_neg (by omega)]

theorem mr_round_n9 : ∀ a, a < 7 → 2 ≤ a → mr_round 9 1 3 a = false := by decide

theorem mr_round_n15 : ∀ a, a < 13 → 2 ≤ a → mr_round 15 7 1 a = false := by decide

theorem mr_round_n25 : ∀ a, a < 23 → 2 ≤ a → ¬(a = 7 ∨ a = 18) → mr_round 25 3 3 a = false := by
  decide

theorem mr_round_n5 : ∀ a, a < 3 → 2 ≤ a → mr_round 5 1 2 a = true := by decide

theorem mr_round_n7 : ∀ a, a < 5 → 2 ≤ a → mr_round 7 3 1 a = true := by decide

theorem mr_round_n11 : ∀ a, a < 9 → 2 ≤ a → mr_round 11 5 1 a = true := by decide

theorem mr_round_n13 : ∀ a, a < 11 → 2 ≤ a → mr_round 13 3 2 a = true := by decide

theorem mr_round_n17 : ∀ a, a < 15 → 2 ≤ a → mr_round 17 1 4 a = true := by decide

set_option maxRecDepth 8000 in
/-- C8 (counterexample): `25` is a strong pseudoprime to bases `7` and
`18`; if every one of the 128 rounds draws the in-range witness `7`, the
test answers `true` on the composite `25` — the claim's "for every choice
of random witnesses" is false. -/
theorem c8_counterexample :
    is_prime_probabilistic 25 (List.replicate 128 7) = true ∧
    (∀ a ∈ List.replicate 128 7, 2 ≤ a ∧ a < 23) ∧
    (List.replicate 128 7).length = 128 := by decide

/-- C8 (amended): with 128 rounds of witnesses drawn from the code's range
`[2, n-2)`, the test answers false on 4, 9 and 15 for every witness choice,
false on 25 for every witness choice containing at least one witness
outside the strong-liar set `{7, 18}`, and true on 5, 7, 11, 13 and 17 for
every witness choice. -/
theorem c8_amended (ws : List Nat) (hlen : ws.length = 128) :
    is_prime_probabilistic 4 ws = false ∧
    ((∀ a ∈ ws, 2 ≤ a ∧ a < 7) → is_prime_probabilistic 9 ws = false) ∧
    ((∀ a ∈ ws, 2 ≤ a ∧ a < 13) → is_prime_probabilistic 15 ws = false) ∧
    ((∀ a ∈ ws, 2 ≤ a ∧ a < 23) → (∃ a ∈ ws, ¬(a = 7 ∨ a = 18)) →
      is_prime_probabilistic 25 ws = false) ∧
    ((∀ a ∈ ws, 2 ≤ a ∧ a < 3) → is_prime_probabilistic 5 ws = true) ∧
    ((∀ a ∈ ws, 2 ≤ a ∧ a < 5) → is_prime_probabilistic 7 ws = true) ∧
    ((∀ a ∈ ws, 2 ≤ a ∧ a < 9) → is_prime_probabilistic 11 ws = true) ∧
    ((∀ a ∈ ws, 2 ≤ a ∧ a < 11) → is_prime_probabilistic 13 ws = true) ∧
    ((∀ a ∈ ws, 2 ≤ a ∧ a < 15) → is_prime_probabilistic 17 ws = true) := by
  have hne : ws ≠ [] := by
    intro h
    rw [h] at hlen
    simp at hlen
  obtain ⟨w, rest, rfl⟩ := List.exists_cons_of_ne_nil hne
  refine ⟨by simp [is_prime_probabilistic], ?_, ?_, ?_, ?_, ?_, ?_, ?_, ?_⟩
  · intro hr
    rw [is_prime_odd 9 (by norm_num)]
    show ((w :: rest).all fun a => mr_round 9 1 3 a) = false
    have hw := hr w (List.mem_cons_self _ _)
    simp [List.all_cons, mr_round_n9 w hw.2 hw.1]
  · intro hr
    rw [is_prime_odd 15 (by norm_num)]
    show ((w :: rest).all fun a => mr_round 15 7 1 a) = false
    have hw := hr w (List.mem_cons_self _ _)
    simp [List.all_cons, mr_round_n15 w hw.2 hw.1]
  · intro hr hex
    obtain ⟨a, hmem, ha⟩ := hex
    rw [is_prime_odd 25 (by norm_num)]
    show ((w :: rest).all fun a => mr_round 25 3 3 a) = false
    cases hall : (w :: rest).all fun a => mr_round 25 3 3 a with
    | false => rfl
    | true =>
      have hr_a := hr a hmem
      have := List.all_eq_true.mp hall a hmem
      rw [mr_round_n25 a hr_a.2 hr_a.1 ha] at this
      exact absurd this (by simp)
  · intro hr
    rw [is_prime_odd 5 (by norm_num)]
    refine List.all_eq_true.mpr fun a hmem => ?_
    have h := hr a hmem
    exact mr_round_n5 a h.2 h.1
  · intro hr
    rw [is_prime_odd 7 (by norm_num)]
    refine List.all_eq_true.mpr fun a hmem => ?_
    have h := hr a hmem
    exact mr_round_n7 a h.2 h.1
  · intro hr
    rw [is_prime_odd 11 (by norm_num)]
    refine List.all_eq_true.mpr fun a hmem => ?_
    have h := hr a hmem
    exact mr_round_n11 a h.2 h.1
  · intro hr
    rw [is_prime_odd 13 (by norm_num)]
    refine List.all_eq_true.mpr fun a hmem => ?_
    have h := hr a hmem
    exact mr_round_n13 a h.2 h.1
  · intro hr
    rw [is_prime_odd 17 (by norm_num)]
    refine List.all_eq_true.mpr fun a hmem => ?_
    have h := hr a hmem
    exact mr_round_n17 a h.2 h.1

set_option maxRecDepth 8000 in
/-- C8 witness: 128 rounds of witness 2 (in range for every tested n). -/
theorem c8_witness :
    (List.replicate 128 2).length = 128 ∧
    is_prime_probabilistic 9 (List.replicate 128 2) = false ∧
    is_prime_probabilistic 25 (List.replicate 128 2) = false ∧
    is_prime_probabilistic 5 (List.replicate 128 2) = true :=
  ⟨by decide,
   (c8_amended _ (by decide)).2.1 (by decide),
   (c8_amended _ (by decide)).2.2.2.1 (by decide) (by decide),
   (c8_amended _ (by decide)).2.2.2.2.1 (by decide)⟩

/-- C9 (counterexample): `gcd(-1, 5) = 1`, yet `modulo_inverse (-1) 5`
returns `None`: the recursive `egcd` propagates a negative gcd (`-1`) for
this input, so the `g != 1` test fires — the claim is false for negative
`a`. -/
theorem c9_counterexample :
    Int.gcd (-1) 5 = 1 ∧ modulo_inverse (-1) 5 = none := by decide

/-- C9 (amended): for every `a ≥ 0` and `m ≥ 2`: if `gcd(a, m) = 1` then
`modulo_inverse a m` returns some `r` with `0 ≤ r < m` and
`a * r ≡ 1 (mod m)`; if `gcd(a, m) ≠ 1` it returns `None`. -/
theorem c9_amended (a m : Int) (ha : 0 ≤ a) (hm : 2 ≤ m) :
    (Int.gcd a m = 1 →
      ∃ r, modulo_inverse a m = some r ∧ 0 ≤ r ∧ r < m ∧ a * r % m = 1) ∧
    (Int.gcd a m ≠ 1 → modulo_inverse a m = none) := by
  obtain ⟨hg, hbez⟩ := egcd_spec a m ha (by omega)
  constructor
  · intro h1
    rw [h1] at hg hbez
    have hm0 : (0 : Int) < m := by omega
    refine ⟨Int.tmod (Int.tmod (egcd a m).2.1 m + m) m, ?_, ?_, ?_, ?_⟩
    · unfold modulo_inverse
      rw [if_neg (by rw [hg]; simp)]
    all_goals {
      have habs := natAbs_tmod_lt (egcd a m).2.1 m (by omega)
      have hmabs : (m.natAbs : Int) = m := Int.natAbs_of_nonneg (by omega)
      have htb1 : ((Int.tmod (egcd a m).2.1 m).natAbs : Int) < m := by
        have hcast := Int.ofNat_lt.mpr habs
        rwa [hmabs] at hcast
      have htb2 : -((Int.tmod (egcd a m).2.1 m).natAbs : Int) ≤ Int.tmod (egcd a m).2.1 m := by
        have hneg := neg_abs_le (Int.tmod (egcd a m).2.1 m)
        rwa [Int.abs_eq_natAbs] at hneg
      have htb3 : Int.tmod (egcd a m).2.1 m ≤ ((Int.tmod (egcd a m).2.1 m).natAbs : Int) :=
        Int.le_natAbs
      have ht2 : 0 ≤ Int.tmod (egcd a m).2.1 m + m := by omega
      have houter : Int.tmod (Int.tmod (egcd a m).2.1 m + m) m
          = (Int.tmod (egcd a m).2.1 m + m) % m := Int.tmod_eq_emod ht2 (by omega)
      first
      | exact houter ▸ Int.emod_nonneg _ (by omega)
      | exact houter ▸ Int.emod_lt_of_pos _ hm0
      | ( rw [houter]
          have hr_x : (Int.tmod (egcd a m).2.1 m + m) % m = (egcd a m).2.1 % m := by
            have htdef : Int.tmod (egcd a m).2.1 m
                = (egcd a m).2.1 - m * Int.tdiv (egcd a m).2.1 m := Int.tmod_def _ _
            rw [htdef]
            have harr : (egcd a m).2.1 - m * Int.tdiv (egcd a m).2.1 m + m
                = (egcd a m).2.1 + m * (1 - Int.tdiv (egcd a m).2.1 m) := by ring
            rw [harr, Int.add_mul_emod_self_left]
          rw [hr_x]
          have hmul : a * ((egcd a m).2.1 % m) % m = a * (egcd a m).2.1 % m := by
            conv_rhs => rw [Int.mul_emod]
            rw [Int.mul_emod a ((egcd a m).2.1 % m) m, Int.emod_emod_of_dvd _ (dvd_refl m)]
          rw [hmul]
          have hax : a * (egcd a m).2.1 = 1 + m * (-(egcd a m).2.2) := by
            have hbez1 : a * (egcd a m).2.1 + m * (egcd a m).2.2 = 1 := by
              simpa using hbez
            linarith
          rw [hax, Int.add_mul_emod_self_left]
          exact Int.emod_eq_of_lt (by omega) (by omega) ) }
  · intro h1
    unfold modulo_inverse
    rw [if_pos]
    rw [hg]
    intro hc
    exact h1 (by exact_mod_cast hc)

/-- C9 witness: `modulo_inverse 3 11 = 4`, matching the claim's concrete
boundary case. -/
theorem c9_witness :
    (0 : Int) ≤ 3 ∧ (2 : Int) ≤ 11 ∧ Int.gcd 3 11 = 1 ∧
    modulo_inverse 3 11 = some 4 ∧
    (∃ r, modulo_inverse 3 11 = some r ∧ 0 ≤ r ∧ r < 11 ∧ (3 : Int) * r % 11 = 1) :=
  ⟨by decide, by decide, by decide, by decide,
   (c9_amended 3 11 (by decide) (by decide)).1 (by decide)⟩

theorem length_dropWhile_le {α : Type} (p : α → Bool) (l : List α) :
    (l.dropWhile p).length ≤ l.length := by
  induction l with
  | nil => simp
  | cons a t ih =>
    by_cases hp : p a
    · rw [List.dropWhile_cons_of_pos hp]
      simp only [List.length_cons]
      omega
    · rw [List.dropWhile_cons_of_neg hp]

/-- C10 (counterexample): writing the single zero byte through the stream
and reading it back reproduces it exactly — `[0x00]` round-trips although
its first byte is zero, so "reproduces `b` exactly precisely when the
first byte of `b` is nonzero" fails at `b = [0x00]`.
(Key pair `(e, d, n) = (5, 29, 323)`, a valid pair with
`max_message_size = 1`.) -/
theorem c10_counterexample :
    rsa_reader_read ⟨29, 323⟩ (rsa_writer_write ⟨5, 323⟩ [0]).1 16 = some [0] ∧
    ([0] : List Nat).head? = some 0 := by decide

/-- C10 (amended): for every functionally valid RSA pair, every nonempty
byte chunk of at most `max_message_size` bytes, and every read buffer at
least as long as the chunk, the stream round trip yields the chunk with
leading zero bytes removed (`[0x00]` for an all-zero chunk); it reproduces
the chunk exactly precisely when the first byte is nonzero or the chunk is
the single byte `0x00`. -/
theorem c10_amended (e d n : Nat) (b : List Nat) (bufLen : Nat)
    (hn : 2 ≤ n)
    (hrt : ∀ x, x < n → modpow (modpow x e n) d n = x)
    (hb : b ≠ [])
    (hbytes : ∀ x ∈ b, x < 256)
    (hlen : b.length ≤ PublicKey.max_message_size ⟨e, n⟩)
    (hbuf : b.length ≤ bufLen) :
    rsa_reader_read ⟨d, n⟩ (rsa_writer_write ⟨e, n⟩ b).1 bufLen
      = some (if ∀ x ∈ b, x = 0 then [0] else b.dropWhile (· = 0)) ∧
    (rsa_reader_read ⟨d, n⟩ (rsa_writer_write ⟨e, n⟩ b).1 bufLen = some b ↔
      b.head? ≠ some 0 ∨ b = [0]) := by
  have htake : collect_bytes b (PublicKey.max_message_size ⟨e, n⟩) = b := by
    rw [collect_bytes_eq_take]
    exact List.take_of_length_le hlen
  have hx0lt : from_bytes_be b < n := by
    have hmax : 8 * PublicKey.max_message_size ⟨e, n⟩ ≤ bits n - 1 := by
      show 8 * ((bits n - 1) / 8) ≤ bits n - 1
      have := Nat.div_mul_le_self (bits n - 1) 8
      omega
    calc from_bytes_be b < 256 ^ b.length := from_bytes_be_lt b hbytes
      _ ≤ 256 ^ PublicKey.max_message_size ⟨e, n⟩ := Nat.pow_le_pow_right (by omega) hlen
      _ = 2 ^ (8 * PublicKey.max_message_size ⟨e, n⟩) := by
          rw [pow_mul]
          norm_num
      _ ≤ 2 ^ (bits n - 1) := Nat.pow_le_pow_right (by omega) hmax
      _ ≤ n := two_pow_bits_pred_le n (by omega)
  have hwriter : (rsa_writer_write ⟨e, n⟩ b).1
      = dec_repr (modpow (from_bytes_be b) e n) ++ ['\n'] := by
    show dec_repr (modpow (from_bytes_be
        (collect_bytes b (PublicKey.max_message_size ⟨e, n⟩))) e n) ++ "\n".data = _
    rw [htake]
  have hlines : read_lines (dec_repr (modpow (from_bytes_be b) e n) ++ ['\n'])
      = [dec_repr (modpow (from_bytes_be b) e n)] :=
    read_lines_single _ fun ch hch => (dec_repr_chars _ ch hch).1
  have htrim : trimChars (dec_repr (modpow (from_bytes_be b) e n))
      = dec_repr (modpow (from_bytes_be b) e n) :=
    trimChars_of_plain _ fun ch hch => (dec_repr_chars _ ch hch).2
  have hread : rsa_reader_read ⟨d, n⟩ (dec_repr (modpow (from_bytes_be b) e n) ++ ['\n']) bufLen
      = some ((to_bytes_be (modpow (modpow (from_bytes_be b) e n) d n)).take bufLen) := by
    unfold rsa_reader_read
    rw [hlines]
    simp only [List.foldl_cons, List.foldl_nil, htrim, parse_dec_repr]
    simp
  have hval : to_bytes_be (from_bytes_be b)
      = if ∀ x ∈ b, x = 0 then [0] else b.dropWhile (· = 0) :=
    to_bytes_be_from_bytes b hbytes
  have hlen2 : (if ∀ x ∈ b, x = 0 then [0] else b.dropWhile (· = 0)).length ≤ bufLen := by
    have hpos : 1 ≤ b.length := List.length_pos.mpr hb
    by_cases hall : ∀ x ∈ b, x = 0
    · rw [if_pos hall]
      simp only [List.length_cons, List.length_nil]
      omega
    · rw [if_neg hall]
      have := length_dropWhile_le (fun x : Nat => x = 0) b
      omega
  have hmain : rsa_reader_read ⟨d, n⟩ (rsa_writer_write ⟨e, n⟩ b).1 bufLen
      = some (if ∀ x ∈ b, x = 0 then [0] else b.dropWhile (· = 0)) := by
    rw [hwriter, hread, hrt (from_bytes_be b) hx0lt, hval, List.take_of_length_le hlen2]
  refine ⟨hmain, ?_⟩
  rw [hmain]
  obtain ⟨h0, t, rfl⟩ := List.exists_cons_of_ne_nil hb
  constructor
  · intro hsome
    have heq : (if ∀ x ∈ h0 :: t, x = 0 then [0] else (h0 :: t).dropWhile (· = 0)) = h0 :: t := by
      simpa using hsome
    by_cases hz : h0 = 0
    · subst hz
      by_cases hall : ∀ x ∈ (0 : Nat) :: t, x = 0
      · rw [if_pos hall] at heq
        right
        exact heq.symm
      · rw [if_neg hall] at heq
        have hstep : ((0 : Nat) :: t).dropWhile (· = 0) = t.dropWhile (· = 0) := by
          rw [List.dropWhile_cons_of_pos]
          simp
        rw [hstep] at heq
        have hle := length_dropWhile_le (fun x : Nat => x = 0) t
        have hlen3 : (t.dropWhile (· = 0)).length = ((0 : Nat) :: t).length :=
          congrArg List.length heq
        simp only [List.length_cons] at hlen3
        omega
    · left
      simp [hz]
  · intro hdisj
    rcases hdisj with hhead | hb0
    · have hz : h0 ≠ 0 := by
        intro h
        subst h
        exact hhead rfl
      have hall : ¬ ∀ x ∈ h0 :: t, x = 0 := fun hc => hz (hc h0 (List.mem_cons_self _ _))
      rw [if_neg hall, List.dropWhile_cons_of_neg (by simp [hz])]
    · rw [hb0]
      rw [if_pos (by intro x hx; simpa using hx)]

set_option maxRecDepth 8000 in
/-- C10 witness: the valid pair `(5, 29, 323)` with chunk `[7]` (nonzero
first byte) and a 16-byte read buffer. -/
theorem c10_witness :
    (2 : Nat) ≤ 323 ∧ (∀ x, x < 323 → modpow (modpow x 5 323) 29 323 = x) ∧
    ([7] : List Nat) ≠ [] ∧ (∀ x ∈ ([7] : List Nat), x < 256) ∧
    ([7] : List Nat).length ≤ PublicKey.max_message_size ⟨5, 323⟩ ∧
    ([7] : List Nat).length ≤ 16 ∧
    rsa_reader_read ⟨29, 323⟩ (rsa_writer_write ⟨5, 323⟩ [7]).1 16
      = some (if ∀ x ∈ ([7] : List Nat), x = 0 then [0]
          else ([7] : List Nat).dropWhile (· = 0)) :=
  ⟨by decide, by decide, by decide, by decide, by decide, by decide,
   (c10_amended 5 29 323 [7] 16 (by decide) (by decide) (by decide) (by decide)
     (by decide) (by decide)).1⟩

end SecureCom
